import Mathlib

/-!
Verification of the edgar_db build pipeline (variant `edgarl/__init__.py`).

The embedding models the pure content of the pipeline: Python dicts become
insertion-ordered association lists, the per-file scan of `gather_index`
becomes a fold over parse outcomes, the chunk fan-out of `EDGAR.build`
becomes a slicing function, and the on-disk files `EDGAR.build` touches
become an explicit state record threaded through one build run.
-/

set_option autoImplicit false

namespace Edgar

/-! ### Python dict model -/

/-- A Python dict with string keys and values: an insertion-ordered
association list with no duplicate keys, where assignment replaces the value
of an existing key in place and appends a fresh key at the end. -/
abbrev Dict := List (String × String)

/-- `m[k] = v`: replace in place when `k` is already a key, else append. -/
def dinsert (m : Dict) (k v : String) : Dict :=
  if m.any (fun p => p.1 == k) then
    m.map (fun p => if p.1 = k then (k, v) else p)
  else m ++ [(k, v)]

/-- `m.get(k)`. -/
def dget (m : Dict) (k : String) : Option String :=
  (m.find? (fun p => p.1 == k)).map (fun p => p.2)

/-- `list(m.keys())`. -/
def dkeys (m : Dict) : List String := m.map (fun p => p.1)

/-- `list(m.values())`. -/
def dvalues (m : Dict) : List String := m.map (fun p => p.2)

/-- `m.update(new)`: assign every pair of `new` into `m`, in order. -/
def dmerge (m new : Dict) : Dict :=
  new.foldl (fun acc p => dinsert acc p.1 p.2) m

/-! ### Identifier normalization -/

/-- `cik = '0' * (10 - len(cik)) + cik`. Python repeats a string zero times
for a negative count, which truncated Nat subtraction reproduces: an input
longer than 10 characters is returned unchanged. -/
def padCik (s : String) : String :=
  String.mk (List.replicate (10 - s.length) '0' ++ s.data)

/-! ### Submission files and gather_index -/

/-- The parse outcome of one submission file inside `gather_index`'s try
block. `invalid` is a `json.load` failure. In a parsed record a field is
`none` when the key is absent; for `cik`, `none` also covers a non-string
value, since `len(cik)` then raises before any map is touched. -/
inductive SubFile where
  | invalid : SubFile
  | record (cik : Option String) (name : Option String)
      (tickers : Option (List String)) : SubFile
deriving DecidableEq

/-- One path of a worker's file list: `open(file_path)` either raises
(outside the try block) or yields the file's contents. -/
inductive DiskFile where
  | unopenable : DiskFile
  | content (f : SubFile) : DiskFile
deriving DecidableEq

/-- The body of `gather_index`'s per-file try block, in source statement
order: read `submission['cik']` and pad it, assign
`company_map[submission['name']]`, then update `ticker_map` from
`submission['tickers']`. An exception is swallowed and leaves both maps as
they were at the point it was raised — in particular a record with `cik` and
`name` but no `tickers` key still contributes its name entry. -/
def processFile (tm cm : Dict) : SubFile → Dict × Dict
  | .invalid => (tm, cm)
  | .record none _ _ => (tm, cm)
  | .record (some _) none _ => (tm, cm)
  | .record (some cik0) (some nm) tks =>
    let cik := padCik cik0
    let cm1 := dinsert cm nm cik
    match tks with
    | none => (tm, cm1)
    | some ts => (ts.foldl (fun m t => dinsert m t cik) tm, cm1)

/-- The loop of `gather_index`, threading the two worker-local maps. A file
whose `open` fails raises out of the worker, modelled as `.error ()`. -/
def gatherGo : List DiskFile → Dict → Dict → Except Unit (Dict × Dict)
  | [], tm, cm => .ok (tm, cm)
  | .unopenable :: _, _, _ => .error ()
  | .content f :: rest, tm, cm =>
    let p := processFile tm cm f
    gatherGo rest p.1 p.2

/-- `gather_index(files)`: scan the files in order into a fresh ticker map
and company map. -/
def gather_index (files : List DiskFile) : Except Unit (Dict × Dict) :=
  gatherGo files [] []

/-- A file `gather_index` indexes completely: it opens, parses, and carries
all three fields. -/
def wellFormedB : DiskFile → Bool
  | .content (.record (some _) (some _) (some _)) => true
  | _ => false

/-- Whether a file's `cik` string, when present, has at most 10 characters. -/
def cikShort : DiskFile → Bool
  | .content (.record (some c) _ _) => decide (c.length ≤ 10)
  | _ => true

/-! ### Chunk fan-out of EDGAR.build -/

/-- The slices `file_names[i:i+cs]` for `i in range(0, len(file_names), cs)`
with positive step `cs`: the range indices are `0, cs, 2*cs, ...`, of which
there are exactly ceil(length / cs), and `l[i:i+cs]` is drop-then-take. -/
def rangeSlices (files : List String) (cs : Nat) : List (List String) :=
  (List.range ((files.length + cs - 1) / cs)).map
    (fun k => (files.drop (k * cs)).take cs)

/-- The fan-out of `EDGAR.build`: `chunk_size = len(file_names) // n`, one
slice per index of `range(0, len(file_names), chunk_size)`. When the chunk
size is 0 — fewer files than workers, or an empty list — `range` raises
`ValueError`, modelled as `none`. -/
def buildChunks (files : List String) (n : Nat) : Option (List (List String)) :=
  let cs := files.length / n
  if cs = 0 then none
  else some (rangeSlices files cs)

/-! ### Archive extraction -/

/-- The extraction step of `process_zip`: extract the archive entries into
the target directory only when `len(os.listdir(folder_path)) <= 0`,
otherwise leave the directory untouched. Directories are (file name,
contents) listings; the download preceding this step writes only the
archive file, never the target directory. -/
def extractIfEmpty (targetDir archive : List (String × String)) :
    List (String × String) :=
  if targetDir.length ≤ 0 then archive else targetDir

/-! ### CompanyFacts accessor -/

/-- The value `CompanyFacts.get` wraps: the group key it was found under,
the field name, and the field's data. -/
structure Field (δ : Type) where
  form : String
  name : String
  data : δ
deriving DecidableEq

/-- `field_name in field_data` followed by `field_data[field_name]`. -/
def flookup {δ : Type} (fd : List (String × δ)) (k : String) : Option δ :=
  (fd.find? (fun p => p.1 == k)).map (fun p => p.2)

/-- `CompanyFacts.get`: iterate the top-level facts groups in order and
return a `Field` from the first group containing `field_name`; fall off the
loop with `None` when no group does. -/
def companyFactsGet {δ : Type} :
    List (String × List (String × δ)) → String → Option (Field δ)
  | [], _ => none
  | (form, fd) :: rest, fn =>
    match flookup fd fn with
    | some d => some ⟨form, fn, d⟩
    | none => companyFactsGet rest fn

/-! ### Build coordinator state -/

/-- The contents of a summary file. The source also records sizes and file
counts; only the timestamp is read back (for rotation) and named by a claim,
so only it is modelled. -/
structure Summary where
  build_timestamp : String
deriving DecidableEq

/-- The on-disk state `EDGAR.build` reads and writes: the two persisted
index files, the current `summary.json` (`none` when absent), and the
archived summaries in `summaries/` as (file name, contents) pairs. -/
structure FS where
  tickerJson : Dict
  companyJson : Dict
  summaryJson : Option Summary
  summariesDir : List (String × Summary)
deriving DecidableEq

/-- The rotation at the top of `EDGAR.build`: when a `summary.json` exists,
read its recorded `build_timestamp` and rename the file into `summaries/`
as `summary_<timestamp>.json`. -/
def rotateSummary (st : FS) : FS :=
  match st.summaryJson with
  | some s =>
    { st with
      summaryJson := none
      summariesDir := st.summariesDir ++
        [("summary_" ++ s.build_timestamp ++ ".json", s)] }
  | none => st

/-- One `EDGAR.build` run over the modelled state, with the outcomes of the
effectful steps as parameters: `fetch1Ok` and `fetch2Ok` for the two
`process_zip` calls, `scan` for the chunked `gather_index` fan-out (`none`
when it raises — zero chunk size, unopenable file, worker crash). The order
follows the source: rotate the previous summary first, then fetch twice,
then scan, and only then write the two index files and the new summary.
Returns the final state and whether the build completed. -/
def buildRun (st : FS) (now : String) (fetch1Ok fetch2Ok : Bool)
    (scan : Option (Dict × Dict)) : FS × Bool :=
  let st1 : FS := rotateSummary st
  if fetch1Ok = false then (st1, false)
  else if fetch2Ok = false then (st1, false)
  else
    match scan with
    | none => (st1, false)
    | some (t, c) =>
      ({ st1 with
          tickerJson := dmerge st.tickerJson t
          companyJson := dmerge st.companyJson c
          summaryJson := some ⟨now⟩ }, true)

/-! ### Concrete records used by the end-to-end scenario -/

/-- The Apple submission record of the end-to-end scenario. -/
def appleFile : DiskFile :=
  .content (.record (some "320193") (some "Apple Inc.") (some ["AAPL"]))

/-- The Amazon submission record of the end-to-end scenario. -/
def amazonFile : DiskFile :=
  .content (.record (some "1018724") (some "Amazon.com Inc.")
    (some ["AMZN", "AMZN.B"]))

/-- A numeric string: nonempty and made of digits. -/
def isNumeric (s : String) : Prop :=
  s.data ≠ [] ∧ ∀ c ∈ s.data, c.isDigit = true

/-- A numeric string whose first character is not the digit 0. -/
def noLeadZero (s : String) : Prop :=
  isNumeric s ∧ s.data.head? ≠ some '0'

/-! ## Lemmas about identifier normalization -/

theorem string_data_inj {s t : String} (h : s.data = t.data) : s = t := by
  cases s; cases t; exact congrArg String.mk h

instance (s : String) : Decidable (isNumeric s) := by
  unfold isNumeric
  infer_instance

instance (s : String) : Decidable (noLeadZero s) := by
  unfold noLeadZero
  infer_instance

theorem padCik_data (s : String) :
    (padCik s).data = List.replicate (10 - s.data.length) '0' ++ s.data := by
  cases s; rfl

theorem padCik_idem (s : String) : padCik (padCik s) = padCik s := by
  apply string_data_inj
  rw [padCik_data, padCik_data]
  have h : 10 - (List.replicate (10 - s.data.length) '0' ++ s.data).length = 0 := by
    simp only [List.length_append, List.length_replicate]
    omega
  rw [h]
  simp

theorem dropZeros_replicate (k : Nat) (l : List Char) :
    List.dropWhile (fun c => c == '0') (List.replicate k '0' ++ l) =
      List.dropWhile (fun c => c == '0') l := by
  induction k with
  | zero => simp
  | succ m ih => simp [List.replicate_succ, List.dropWhile_cons, ih]

theorem dropZeros_head_ne (l : List Char) (h : l ≠ []) (h0 : l.head? ≠ some '0') :
    List.dropWhile (fun c => c == '0') l = l := by
  cases l with
  | nil => exact absurd rfl h
  | cons c rest =>
    have hc : c ≠ '0' := by simpa using h0
    simp [List.dropWhile_cons, hc]

/-- C5: left-padding with zeros to width 10 is idempotent on every numeric
string of length at most 10 and injective on numeric strings with no leading
zero, and it maps "320193" to "0000320193". -/
theorem padCik_idem_inj :
    (∀ s : String, isNumeric s → s.length ≤ 10 → padCik (padCik s) = padCik s) ∧
    (∀ s t : String, noLeadZero s → noLeadZero t → padCik s = padCik t → s = t) ∧
    padCik "320193" = "0000320193" := by
  refine ⟨fun s _ _ => padCik_idem s, fun s t hs ht h => ?_, by decide⟩
  apply string_data_inj
  have hd := congrArg String.data h
  rw [padCik_data, padCik_data] at hd
  have h1 := congrArg (List.dropWhile (fun c => c == '0')) hd
  rw [dropZeros_replicate, dropZeros_replicate,
    dropZeros_head_ne s.data hs.1.1 hs.2, dropZeros_head_ne t.data ht.1.1 ht.2] at h1
  exact h1

theorem padCik_idem_inj_w :
    padCik (padCik "320193") = padCik "320193" ∧ ("320193" : String) = "320193" :=
  ⟨padCik_idem_inj.1 "320193" (by decide) (by decide),
   padCik_idem_inj.2.1 "320193" "320193" ⟨by decide, by decide⟩ ⟨by decide, by decide⟩ rfl⟩

/-! ## End-to-end scenario and chunk fan-out -/

/-- C1: `gather_index` over the three scenario files yields exactly the
claimed ticker and company maps with the invalid file skipped, but the
end-to-end build does not succeed: with the default worker count 8 and only
3 submission files, `chunk_size` is `3 // 8 = 0` and `range(0, 3, 0)` raises
`ValueError`, aborting the build before any worker runs. -/
theorem end_to_end_three_files :
    gather_index [appleFile, amazonFile, .content .invalid] =
      .ok ([("AAPL", "0000320193"), ("AMZN", "0001018724"), ("AMZN.B", "0001018724")],
        [("Apple Inc.", "0000320193"), ("Amazon.com Inc.", "0001018724")]) ∧
    buildChunks ["f1.json", "f2.json", "f3.json"] 8 = none :=
  ⟨rfl, rfl⟩

/-- C3 counterexample: 9 files with the default 8 workers give a slice width
of `9 // 8 = 1` and therefore 9 chunks, not 8. -/
theorem chunk_count_cex :
    (buildChunks ["f1", "f2", "f3", "f4", "f5", "f6", "f7", "f8", "f9"] 8).map
      List.length = some 9 ∧ (9 : Nat) ≠ 8 :=
  ⟨rfl, by decide⟩

/-! ## Archive extraction -/

/-- C7: a populated target directory is never extracted into, and a second
extract call on a populated directory leaves its contents exactly as they
were before that call. -/
theorem extract_idempotent (d a : List (String × String)) (h : d ≠ []) :
    extractIfEmpty d a = d ∧
    extractIfEmpty (extractIfEmpty d a) a = extractIfEmpty d a := by
  have hl : ¬ d.length ≤ 0 := by
    cases d with
    | nil => exact absurd rfl h
    | cons x xs => simp
  constructor
  · simp [extractIfEmpty, hl]
  · simp [extractIfEmpty, hl]

theorem extract_idempotent_w :
    extractIfEmpty [("CIK0000320193.json", "facts")] [] =
      [("CIK0000320193.json", "facts")] ∧
    extractIfEmpty (extractIfEmpty [("CIK0000320193.json", "facts")] []) [] =
      extractIfEmpty [("CIK0000320193.json", "facts")] [] :=
  extract_idempotent [("CIK0000320193.json", "facts")] [] (by decide)

/-! ## Identifier width of stored values -/

/-- C6 counterexample: a record whose cik string has 11 characters is stored
unpadded (the Python pad repeats the zero a negative number of times), so a
stored identifier value has length 11, not 10. -/
theorem long_cik_cex :
    gather_index [.content (.record (some "12345678901") (some "X") (some ["T"]))] =
      .ok ([("T", "12345678901")], [("X", "12345678901")]) ∧
    ¬ ∀ v ∈ dvalues [("T", "12345678901")], v.length = 10 :=
  ⟨rfl, by decide⟩

/-! ## Lemmas about the dict model -/

theorem dkeys_dinsert_mono (m : Dict) (k v a : String) (h : a ∈ dkeys m) :
    a ∈ dkeys (dinsert m k v) := by
  unfold dinsert
  by_cases hc : m.any (fun p => p.1 == k) = true
  · rw [if_pos hc]
    unfold dkeys at h ⊢
    simp only [List.map_map, List.mem_map, Function.comp] at h ⊢
    obtain ⟨p, hp, hpa⟩ := h
    by_cases hk : p.1 = k
    · refine ⟨p, hp, ?_⟩
      rw [if_pos hk]
      show k = a
      rw [← hk]
      exact hpa
    · exact ⟨p, hp, by rw [if_neg hk]; exact hpa⟩
  · rw [if_neg hc]
    unfold dkeys at h ⊢
    rw [List.map_append]
    exact List.mem_append_left _ h

theorem dkeys_dinsert_self (m : Dict) (k v : String) :
    k ∈ dkeys (dinsert m k v) := by
  unfold dinsert
  by_cases hc : m.any (fun p => p.1 == k) = true
  · rw [if_pos hc]
    simp only [List.any_eq_true, beq_iff_eq] at hc
    obtain ⟨p, hp, hpk⟩ := hc
    unfold dkeys
    simp only [List.map_map, List.mem_map, Function.comp]
    exact ⟨p, hp, by rw [if_pos hpk]⟩
  · rw [if_neg hc]
    unfold dkeys
    rw [List.map_append]
    exact List.mem_append_right _ (by simp)

theorem dvalues_dinsert (m : Dict) (k v a : String)
    (h : a ∈ dvalues (dinsert m k v)) : a ∈ dvalues m ∨ a = v := by
  unfold dinsert at h
  by_cases hc : m.any (fun p => p.1 == k) = true
  · rw [if_pos hc] at h
    unfold dvalues at h ⊢
    simp only [List.map_map, List.mem_map, Function.comp] at h
    obtain ⟨p, hp, hpa⟩ := h
    by_cases hk : p.1 = k
    · rw [if_pos hk] at hpa
      exact Or.inr hpa.symm
    · rw [if_neg hk] at hpa
      exact Or.inl (List.mem_map.2 ⟨p, hp, hpa⟩)
  · rw [if_neg hc] at h
    unfold dvalues at h ⊢
    rw [List.map_append] at h
    rcases List.mem_append.1 h with h | h
    · exact Or.inl h
    · simp at h
      exact Or.inr h

theorem dkeys_foldl_mono (ts : List String) (cik : String) :
    ∀ (m : Dict) (a : String), a ∈ dkeys m →
      a ∈ dkeys (ts.foldl (fun m t => dinsert m t cik) m) := by
  induction ts with
  | nil => exact fun m a h => h
  | cons t rest ih =>
    intro m a h
    exact ih (dinsert m t cik) a (dkeys_dinsert_mono m t cik a h)

theorem dkeys_foldl_mem (ts : List String) (cik : String) :
    ∀ (m : Dict) (u : String), u ∈ ts →
      u ∈ dkeys (ts.foldl (fun m t => dinsert m t cik) m) := by
  induction ts with
  | nil => simp
  | cons t rest ih =>
    intro m u hu
    rcases List.mem_cons.1 hu with h | h
    · subst h
      exact dkeys_foldl_mono rest cik (dinsert m u cik) u (dkeys_dinsert_self m u cik)
    · exact ih (dinsert m t cik) u h

theorem dvalues_foldl (ts : List String) (cik : String) :
    ∀ (m : Dict) (v : String),
      v ∈ dvalues (ts.foldl (fun m t => dinsert m t cik) m) →
      v ∈ dvalues m ∨ v = cik := by
  induction ts with
  | nil => exact fun m v h => Or.inl h
  | cons t rest ih =>
    intro m v h
    rcases ih (dinsert m t cik) v h with h2 | h2
    · exact dvalues_dinsert m t cik v h2
    · exact Or.inr h2

/-! ## Lemmas about gather_index -/

theorem processFile_keys_mono (tm cm : Dict) (f : SubFile) :
    (∀ a ∈ dkeys tm, a ∈ dkeys (processFile tm cm f).1) ∧
    (∀ a ∈ dkeys cm, a ∈ dkeys (processFile tm cm f).2) := by
  match f with
  | .invalid => exact ⟨fun a h => h, fun a h => h⟩
  | .record none nm tks => exact ⟨fun a h => h, fun a h => h⟩
  | .record (some c) none tks => exact ⟨fun a h => h, fun a h => h⟩
  | .record (some c) (some nm) none =>
    exact ⟨fun a h => h, fun a h => dkeys_dinsert_mono cm nm (padCik c) a h⟩
  | .record (some c) (some nm) (some ts) =>
    exact ⟨fun a h => dkeys_foldl_mono ts (padCik c) tm a h,
      fun a h => dkeys_dinsert_mono cm nm (padCik c) a h⟩

theorem processFile_record_keys (tm cm : Dict) (c nm : String) (ts : List String) :
    nm ∈ dkeys (processFile tm cm (.record (some c) (some nm) (some ts))).2 ∧
    ∀ t ∈ ts, t ∈ dkeys (processFile tm cm (.record (some c) (some nm) (some ts))).1 :=
  ⟨dkeys_dinsert_self cm nm (padCik c),
   fun t ht => dkeys_foldl_mem ts (padCik c) tm t ht⟩

theorem gatherGo_ok_spec (files : List DiskFile)
    (hopen : ∀ f ∈ files, f ≠ DiskFile.unopenable) :
    ∀ tm cm, ∃ tm2 cm2, gatherGo files tm cm = .ok (tm2, cm2) ∧
      (∀ a ∈ dkeys tm, a ∈ dkeys tm2) ∧
      (∀ a ∈ dkeys cm, a ∈ dkeys cm2) ∧
      (∀ c nm ts, DiskFile.content (.record (some c) (some nm) (some ts)) ∈ files →
        nm ∈ dkeys cm2 ∧ ∀ t ∈ ts, t ∈ dkeys tm2) := by
  induction files with
  | nil =>
    intro tm cm
    exact ⟨tm, cm, rfl, fun a h => h, fun a h => h, by simp⟩
  | cons f rest ih =>
    intro tm cm
    match f, hopen f (List.mem_cons_self f rest) with
    | .content sub, _ =>
      obtain ⟨tm2, cm2, heq, hmt, hmc, hrec⟩ :=
        ih (fun g hg => hopen g (List.mem_cons_of_mem _ hg))
          (processFile tm cm sub).1 (processFile tm cm sub).2
      refine ⟨tm2, cm2, heq, ?_, ?_, ?_⟩
      · exact fun a h => hmt a ((processFile_keys_mono tm cm sub).1 a h)
      · exact fun a h => hmc a ((processFile_keys_mono tm cm sub).2 a h)
      · intro c nm ts hmem
        rcases List.mem_cons.1 hmem with h | h
        · have hsub : sub = .record (some c) (some nm) (some ts) :=
            by injection h.symm
          subst hsub
          obtain ⟨hn, ht⟩ := processFile_record_keys tm cm c nm ts
          exact ⟨hmc nm hn, fun t htt => hmt t (ht t htt)⟩
        · exact hrec c nm ts h

/-- C2: one file that opens but fails to parse (or lacks a field) never
aborts the scan: `gather_index` over the whole list still returns a result,
and every well-formed record is indexed — its name appears among the company
map keys and each of its tickers among the ticker map keys. -/
theorem malformed_record_scoped (l1 l2 : List DiskFile) (bad : DiskFile)
    (hbadOpen : bad ≠ DiskFile.unopenable)
    (_hbad : wellFormedB bad = false)
    (h1 : ∀ f ∈ l1, wellFormedB f = true)
    (h2 : ∀ f ∈ l2, wellFormedB f = true) :
    ∃ tm cm, gather_index (l1 ++ bad :: l2) = .ok (tm, cm) ∧
      ∀ c nm ts,
        DiskFile.content (.record (some c) (some nm) (some ts)) ∈ l1 ++ l2 →
        nm ∈ dkeys cm ∧ ∀ t ∈ ts, t ∈ dkeys tm := by
  have hopen : ∀ f ∈ l1 ++ bad :: l2, f ≠ DiskFile.unopenable := by
    intro f hf
    rcases List.mem_append.1 hf with h | h
    · have hw := h1 f h
      intro he
      rw [he] at hw
      simp [wellFormedB] at hw
    · rcases List.mem_cons.1 h with h | h
      · exact h ▸ hbadOpen
      · have hw := h2 f h
        intro he
        rw [he] at hw
        simp [wellFormedB] at hw
  obtain ⟨tm, cm, heq, _, _, hrec⟩ := gatherGo_ok_spec (l1 ++ bad :: l2) hopen [] []
  refine ⟨tm, cm, heq, ?_⟩
  intro c nm ts hmem
  apply hrec
  rcases List.mem_append.1 hmem with h | h
  · exact List.mem_append.2 (Or.inl h)
  · exact List.mem_append.2 (Or.inr (List.mem_cons_of_mem _ h))

theorem malformed_record_scoped_w :
    ∃ tm cm,
      gather_index [appleFile, .content .invalid, amazonFile] = .ok (tm, cm) ∧
      ∀ c nm ts,
        DiskFile.content (.record (some c) (some nm) (some ts)) ∈
          [appleFile, amazonFile] →
        nm ∈ dkeys cm ∧ ∀ t ∈ ts, t ∈ dkeys tm :=
  malformed_record_scoped [appleFile] [amazonFile] (.content .invalid)
    (by decide) (by decide) (by decide) (by decide)

/-! ## One unopenable path aborts the scan -/

theorem gatherGo_unopenable (l2 : List DiskFile) :
    ∀ (l1 : List DiskFile) (tm cm : Dict),
      gatherGo (l1 ++ DiskFile.unopenable :: l2) tm cm = .error () := by
  intro l1
  induction l1 with
  | nil => exact fun tm cm => rfl
  | cons f rest ih =>
    intro tm cm
    cases f with
    | unopenable => rfl
    | content sub => exact ih (processFile tm cm sub).1 (processFile tm cm sub).2

/-- C9: the `open` call sits outside the per-file try block, so a single
path that cannot be opened, anywhere in a worker's list, makes the whole
scan raise instead of being skipped. -/
theorem unopenable_aborts (l1 l2 : List DiskFile) :
    gather_index (l1 ++ DiskFile.unopenable :: l2) = .error () :=
  gatherGo_unopenable l2 l1 [] []

theorem unopenable_aborts_w :
    gather_index [appleFile, DiskFile.unopenable] = .error () :=
  unopenable_aborts [appleFile] []

/-! ## Width of stored identifiers -/

theorem padCik_length_of_le (c : String) (h : c.length ≤ 10) :
    (padCik c).length = 10 := by
  cases c with
  | mk l =>
    have hd := padCik_data (String.mk l)
    have : (padCik (String.mk l)).data.length =
        (List.replicate (10 - l.length) '0' ++ l).length := by rw [hd]
    simp only [List.length_append, List.length_replicate] at this
    have hlen : (padCik (String.mk l)).length = (padCik (String.mk l)).data.length := by
      cases padCik (String.mk l)
      rfl
    rw [hlen, this]
    have hl : l.length ≤ 10 := h
    omega

theorem gatherGo_values (files : List DiskFile) :
    ∀ tm cm tm2 cm2,
      (∀ f ∈ files, cikShort f = true) →
      (∀ v ∈ dvalues tm, v.length = 10) →
      (∀ v ∈ dvalues cm, v.length = 10) →
      gatherGo files tm cm = .ok (tm2, cm2) →
      (∀ v ∈ dvalues tm2, v.length = 10) ∧ (∀ v ∈ dvalues cm2, v.length = 10) := by
  induction files with
  | nil =>
    intro tm cm tm2 cm2 _ htm hcm heq
    obtain ⟨h1, h2⟩ : tm = tm2 ∧ cm = cm2 := by
      have := heq
      simp [gatherGo] at this
      exact ⟨this.1, this.2⟩
    exact ⟨h1 ▸ htm, h2 ▸ hcm⟩
  | cons f rest ih =>
    intro tm cm tm2 cm2 hshort htm hcm heq
    cases f with
    | unopenable => simp [gatherGo] at heq
    | content sub =>
      have hrest : ∀ f ∈ rest, cikShort f = true :=
        fun g hg => hshort g (List.mem_cons_of_mem _ hg)
      have hstep :
          (∀ v ∈ dvalues (processFile tm cm sub).1, v.length = 10) ∧
          (∀ v ∈ dvalues (processFile tm cm sub).2, v.length = 10) := by
        have hsub := hshort (.content sub) (List.mem_cons_self _ _)
        match sub, hsub with
        | .invalid, _ => exact ⟨htm, hcm⟩
        | .record none nm tks, _ => exact ⟨htm, hcm⟩
        | .record (some c) none tks, hsub => exact ⟨htm, hcm⟩
        | .record (some c) (some nm) none, hsub =>
          have hc : c.length ≤ 10 := by
            simpa [cikShort] using hsub
          refine ⟨htm, fun v hv => ?_⟩
          rcases dvalues_dinsert cm nm (padCik c) v hv with h | h
          · exact hcm v h
          · exact h ▸ padCik_length_of_le c hc
        | .record (some c) (some nm) (some ts), hsub =>
          have hc : c.length ≤ 10 := by
            simpa [cikShort] using hsub
          constructor
          · intro v hv
            rcases dvalues_foldl ts (padCik c) tm v hv with h | h
            · exact htm v h
            · exact h ▸ padCik_length_of_le c hc
          · intro v hv
            rcases dvalues_dinsert cm nm (padCik c) v hv with h | h
            · exact hcm v h
            · exact h ▸ padCik_length_of_le c hc
      exact ih (processFile tm cm sub).1 (processFile tm cm sub).2 tm2 cm2
        hrest hstep.1 hstep.2 heq

/-- C6 amended: every identifier value stored by the index builder has
exactly 10 characters provided each record's cik string has at most 10
characters; a longer cik string is stored at its original length, so the
10-character invariant does not hold for arbitrary string ciks. -/
theorem cik_values_len (files : List DiskFile)
    (hshort : ∀ f ∈ files, cikShort f = true)
    (tm cm : Dict) (hok : gather_index files = .ok (tm, cm)) :
    (∀ v ∈ dvalues tm, v.length = 10) ∧ (∀ v ∈ dvalues cm, v.length = 10) :=
  gatherGo_values files [] [] tm cm hshort (by simp [dvalues])
    (by simp [dvalues]) hok

theorem cik_values_len_w :
    (∀ v ∈ dvalues [("AAPL", "0000320193")], v.length = 10) ∧
    (∀ v ∈ dvalues [("Apple Inc.", "0000320193")], v.length = 10) :=
  cik_values_len [appleFile] (by decide)
    [("AAPL", "0000320193")] [("Apple Inc.", "0000320193")] rfl

/-! ## Lemmas about the chunk fan-out -/

theorem chunkCount_cons (L cs : Nat) (hcs : 0 < cs) (hL : 0 < L) :
    (L + cs - 1) / cs = (L - cs + cs - 1) / cs + 1 := by
  rcases Nat.le_total L cs with h | h
  · have h1 : L - cs = 0 := by omega
    rw [h1]
    have h2 : (0 + cs - 1) / cs = 0 := Nat.div_eq_of_lt (by omega)
    rw [h2]
    exact Nat.div_eq_of_lt_le (by omega) (by omega)
  · have h1 : L + cs - 1 = (L - cs + cs - 1) + cs := by omega
    rw [h1, Nat.add_div_right _ hcs]

theorem rangeSlices_nil (cs : Nat) (hcs : 0 < cs) :
    rangeSlices [] cs = [] := by
  unfold rangeSlices
  have h : (List.length ([] : List String) + cs - 1) / cs = 0 := by
    simp only [List.length_nil, Nat.zero_add]
    exact Nat.div_eq_of_lt (by omega)
  rw [h]
  rfl

theorem rangeSlices_cons (l : List String) (cs : Nat) (hcs : 0 < cs)
    (hl : l ≠ []) :
    rangeSlices l cs = l.take cs :: rangeSlices (l.drop cs) cs := by
  have hL : 0 < l.length := List.length_pos.2 hl
  unfold rangeSlices
  rw [List.length_drop, chunkCount_cons l.length cs hcs hL,
    List.range_succ_eq_map]
  simp only [List.map_cons, List.map_map]
  congr 1
  · simp
  · apply List.map_congr_left
    intro k _
    simp only [Function.comp]
    rw [List.drop_drop, Nat.succ_mul, Nat.add_comm (k * cs) cs]

theorem rangeSlices_flatten (cs : Nat) (hcs : 0 < cs) :
    ∀ (N : Nat) (l : List String), l.length ≤ N → (rangeSlices l cs).flatten = l := by
  intro N
  induction N with
  | zero =>
    intro l hl
    have h : l = [] := List.length_eq_zero.1 (Nat.le_zero.1 hl)
    subst h
    rw [rangeSlices_nil cs hcs]
    rfl
  | succ m ih =>
    intro l hl
    by_cases h : l = []
    · subst h
      rw [rangeSlices_nil cs hcs]
      rfl
    · rw [rangeSlices_cons l cs hcs h, List.flatten_cons,
        ih (l.drop cs) (by rw [List.length_drop]; omega)]
      exact List.take_append_drop cs l

/-- C3 amended: with at least as many files as workers (so that the slice
width `len // n` is positive) the fan-out slices the list into contiguous
chunks whose concatenation is the input list, but the number of chunks is
`ceil(len / (len // n))`, which exceeds `n` whenever `n` does not divide
`len` — extra small chunks appear instead of the last chunk absorbing the
remainder; and with fewer files than workers the slice width is 0 and the
fan-out raises instead of partitioning at all. -/
theorem chunking_amended (files : List String) (n : Nat) (hn : 1 ≤ n)
    (hL : n ≤ files.length) :
    (∃ chunks, buildChunks files n = some chunks ∧
      chunks.flatten = files ∧
      chunks.length = (files.length + files.length / n - 1) / (files.length / n)) ∧
    (∀ g : List String, ∀ m : Nat, g.length < m → buildChunks g m = none) := by
  constructor
  · have hcs : 0 < files.length / n := (Nat.one_le_div_iff (by omega)).2 hL
    refine ⟨rangeSlices files (files.length / n), ?_, ?_, ?_⟩
    · unfold buildChunks
      rw [if_neg (by omega)]
    · exact rangeSlices_flatten (files.length / n) hcs files.length files le_rfl
    · unfold rangeSlices
      rw [List.length_map, List.length_range]
  · intro g m hgm
    unfold buildChunks
    rw [if_pos (Nat.div_eq_of_lt hgm)]

theorem chunking_amended_w :
    (∃ chunks, buildChunks ["f1", "f2", "f3", "f4"] 3 = some chunks ∧
      chunks.flatten = ["f1", "f2", "f3", "f4"] ∧
      chunks.length =
        ((["f1", "f2", "f3", "f4"] : List String).length +
            (["f1", "f2", "f3", "f4"] : List String).length / 3 - 1) /
          ((["f1", "f2", "f3", "f4"] : List String).length / 3)) ∧
    (∀ g : List String, ∀ m : Nat, g.length < m → buildChunks g m = none) :=
  chunking_amended ["f1", "f2", "f3", "f4"] 3 (by decide) (by decide)

/-! ## Lemmas about the build coordinator -/

theorem rotateSummary_tickerJson (st : FS) :
    (rotateSummary st).tickerJson = st.tickerJson := by
  unfold rotateSummary
  cases st.summaryJson <;> rfl

theorem rotateSummary_companyJson (st : FS) :
    (rotateSummary st).companyJson = st.companyJson := by
  unfold rotateSummary
  cases st.summaryJson <;> rfl

theorem rotateSummary_of_none (st : FS) (h : st.summaryJson = none) :
    rotateSummary st = st := by
  unfold rotateSummary
  rw [h]

theorem rotateSummary_of_some (st : FS) (s : Summary)
    (h : st.summaryJson = some s) :
    (rotateSummary st).summaryJson = none ∧
    (rotateSummary st).summariesDir =
      st.summariesDir ++ [("summary_" ++ s.build_timestamp ++ ".json", s)] := by
  unfold rotateSummary
  rw [h]
  exact ⟨rfl, rfl⟩

theorem buildRun_failed_state (st : FS) (now : String) (f1 f2 : Bool)
    (scan : Option (Dict × Dict))
    (h : (buildRun st now f1 f2 scan).2 = false) :
    (buildRun st now f1 f2 scan).1 = rotateSummary st := by
  unfold buildRun at h ⊢
  cases f1 with
  | false => rfl
  | true =>
    cases f2 with
    | false => rfl
    | true =>
      cases scan with
      | none => rfl
      | some p =>
        obtain ⟨t, c⟩ := p
        simp at h

/-- A prior on-disk state: nonempty persisted indices and one persisted
summary from an earlier build. -/
def fsPrior : FS :=
  { tickerJson := [("AAPL", "0000320193")]
    companyJson := [("Apple Inc.", "0000320193")]
    summaryJson := some ⟨"2024-01-01T00:00:00"⟩
    summariesDir := [] }

/-- C4 counterexample: a build whose first fetch fails aborts with the index
files unchanged, yet the summary file is not untouched: the rotation at the
top of the build has already renamed the previous summary.json into
summaries/, leaving no summary.json at its original path. -/
theorem failed_build_moves_summary_cex :
    (buildRun fsPrior "2024-01-02T00:00:00" false true none).2 = false ∧
    fsPrior.summaryJson = some ⟨"2024-01-01T00:00:00"⟩ ∧
    (buildRun fsPrior "2024-01-02T00:00:00" false true none).1.summaryJson =
      none ∧
    (buildRun fsPrior "2024-01-02T00:00:00" false true none).1.summariesDir =
      [("summary_2024-01-01T00:00:00.json", ⟨"2024-01-01T00:00:00"⟩)] := by
  decide

/-- C4 amended: a failed build leaves the persisted ticker and company index
files unchanged — they are written only after the scan completes — and when
no prior summary existed the whole state is unchanged; but a prior
summary.json is not untouched: the rotation that runs before any fallible
step has already renamed it into summaries/ under its recorded timestamp. -/
theorem failed_build_preserves_indices (st : FS) (now : String)
    (f1 f2 : Bool) (scan : Option (Dict × Dict))
    (h : (buildRun st now f1 f2 scan).2 = false) :
    (buildRun st now f1 f2 scan).1.tickerJson = st.tickerJson ∧
    (buildRun st now f1 f2 scan).1.companyJson = st.companyJson ∧
    (st.summaryJson = none → (buildRun st now f1 f2 scan).1 = st) ∧
    (∀ s, st.summaryJson = some s →
      (buildRun st now f1 f2 scan).1.summaryJson = none ∧
      (buildRun st now f1 f2 scan).1.summariesDir =
        st.summariesDir ++ [("summary_" ++ s.build_timestamp ++ ".json", s)]) := by
  rw [buildRun_failed_state st now f1 f2 scan h]
  exact ⟨rotateSummary_tickerJson st, rotateSummary_companyJson st,
    rotateSummary_of_none st, fun s hs => rotateSummary_of_some st s hs⟩

theorem failed_build_preserves_indices_w :
    (buildRun fsPrior "2024-01-02T00:00:00" false true none).1.tickerJson =
      fsPrior.tickerJson ∧
    (buildRun fsPrior "2024-01-02T00:00:00" false true none).1.companyJson =
      fsPrior.companyJson ∧
    (fsPrior.summaryJson = none →
      (buildRun fsPrior "2024-01-02T00:00:00" false true none).1 = fsPrior) ∧
    (∀ s, fsPrior.summaryJson = some s →
      (buildRun fsPrior "2024-01-02T00:00:00" false true none).1.summaryJson =
        none ∧
      (buildRun fsPrior "2024-01-02T00:00:00" false true none).1.summariesDir =
        fsPrior.summariesDir ++
          [("summary_" ++ s.build_timestamp ++ ".json", s)]) :=
  failed_build_preserves_indices fsPrior "2024-01-02T00:00:00" false true none rfl

/-- C8: starting with no summary.json and an empty summaries directory, two
successful builds leave exactly one archived summary in summaries/, named
with the first run's timestamp, and a summary.json whose build_timestamp is
the second run's; each run renames the prior summary into summaries/ before
the new one is written. -/
theorem summary_rotation_twice (st : FS) (t1 t2 : String) (m1 m2 : Dict × Dict)
    (h0 : st.summaryJson = none) (h1 : st.summariesDir = []) :
    (buildRun st t1 true true (some m1)).2 = true ∧
    (buildRun (buildRun st t1 true true (some m1)).1 t2 true true (some m2)).2 =
      true ∧
    (buildRun (buildRun st t1 true true (some m1)).1 t2 true true
        (some m2)).1.summariesDir =
      [("summary_" ++ t1 ++ ".json", Summary.mk t1)] ∧
    (buildRun (buildRun st t1 true true (some m1)).1 t2 true true
        (some m2)).1.summaryJson = some (Summary.mk t2) := by
  obtain ⟨m1t, m1c⟩ := m1
  obtain ⟨m2t, m2c⟩ := m2
  refine ⟨rfl, rfl, ?_, rfl⟩
  have hs1 : (buildRun st t1 true true (some (m1t, m1c))).1.summaryJson =
      some ⟨t1⟩ := rfl
  have hd1 : (buildRun st t1 true true (some (m1t, m1c))).1.summariesDir =
      st.summariesDir := by
    show (rotateSummary st).summariesDir = st.summariesDir
    rw [rotateSummary_of_none st h0]
  show (rotateSummary (buildRun st t1 true true (some (m1t, m1c))).1).summariesDir =
    [("summary_" ++ t1 ++ ".json", Summary.mk t1)]
  rw [(rotateSummary_of_some _ ⟨t1⟩ hs1).2, hd1, h1]
  rfl

theorem summary_rotation_twice_w :
    (buildRun ⟨[], [], none, []⟩ "2024-01-01" true true (some ([], []))).2 =
      true ∧
    (buildRun (buildRun ⟨[], [], none, []⟩ "2024-01-01" true true
        (some ([], []))).1 "2024-02-01" true true (some ([], []))).2 = true ∧
    (buildRun (buildRun ⟨[], [], none, []⟩ "2024-01-01" true true
        (some ([], []))).1 "2024-02-01" true true
        (some ([], []))).1.summariesDir =
      [("summary_" ++ "2024-01-01" ++ ".json", Summary.mk "2024-01-01")] ∧
    (buildRun (buildRun ⟨[], [], none, []⟩ "2024-01-01" true true
        (some ([], []))).1 "2024-02-01" true true
        (some ([], []))).1.summaryJson = some (Summary.mk "2024-02-01") :=
  summary_rotation_twice ⟨[], [], none, []⟩ "2024-01-01" "2024-02-01"
    ([], []) ([], []) rfl rfl

/-! ## CompanyFacts.get -/

theorem companyFactsGet_cons {δ : Type} (form : String) (fd : List (String × δ))
    (rest : List (String × List (String × δ))) (fn : String) :
    companyFactsGet ((form, fd) :: rest) fn =
      match flookup fd fn with
      | some d => some ⟨form, fn, d⟩
      | none => companyFactsGet rest fn := rfl

/-- C10: `CompanyFacts.get` returns `None` when no top-level facts group
contains the field name (no exception is raised), and otherwise returns a
`Field` built from the first group, in iteration order, that contains it. -/
theorem companyFactsGet_first {δ : Type} (fn : String) :
    (∀ facts : List (String × List (String × δ)),
      (∀ g ∈ facts, flookup g.2 fn = none) → companyFactsGet facts fn = none) ∧
    (∀ (l1 l2 : List (String × List (String × δ))) (form : String)
        (fd : List (String × δ)) (d : δ),
      (∀ g ∈ l1, flookup g.2 fn = none) → flookup fd fn = some d →
      companyFactsGet (l1 ++ (form, fd) :: l2) fn = some ⟨form, fn, d⟩) := by
  constructor
  · intro facts
    induction facts with
    | nil => intro _; rfl
    | cons g rest ih =>
      intro h
      obtain ⟨form, fd⟩ := g
      have h0 : flookup fd fn = none := h (form, fd) (List.mem_cons_self _ _)
      rw [companyFactsGet_cons, h0]
      exact ih (fun g hg => h g (List.mem_cons_of_mem _ hg))
  · intro l1
    induction l1 with
    | nil =>
      intro l2 form fd d _ hfd
      rw [List.nil_append, companyFactsGet_cons, hfd]
    | cons g rest ih =>
      intro l2 form fd d h1 hfd
      obtain ⟨f0, fd0⟩ := g
      have h0 : flookup fd0 fn = none := h1 (f0, fd0) (List.mem_cons_self _ _)
      rw [List.cons_append, companyFactsGet_cons, h0]
      exact ih l2 form fd d (fun g hg => h1 g (List.mem_cons_of_mem _ hg)) hfd

theorem companyFactsGet_first_w :
    companyFactsGet [("dei", [("Assets", (1 : Nat))])] "Revenues" = none ∧
    companyFactsGet
        [("dei", [("Assets", (1 : Nat))]), ("us-gaap", [("Revenues", 2)]),
          ("ifrs", [("Revenues", 3)])] "Revenues" =
      some ⟨"us-gaap", "Revenues", 2⟩ :=
  ⟨(@companyFactsGet_first Nat "Revenues").1 [("dei", [("Assets", 1)])]
      (by decide),
   (@companyFactsGet_first Nat "Revenues").2 [("dei", [("Assets", 1)])]
      [("ifrs", [("Revenues", 3)])] "us-gaap" [("Revenues", 2)] 2
      (by decide) (by decide)⟩

end Edgar
